import Mathlib

/-!
Shallow embedding of busybot (`src/index.mjs`), a proof-of-work library built
on modular arithmetic over Mersenne-prime moduli `2^n - 1`.

JS `BigInt` values are modelled as `Int`.  JS `BigInt` shifts (`>>`, `<<`) are
floor division / multiplication by powers of two, which is exactly Lean's
`Int` `/` (Euclidean division, = floor division for positive divisors) and
`*`.  The only bitwise operation the source performs is XOR with the constant
`Flip_Bits = 1n`, which flips the least significant bit: on any `BigInt`
(two's complement) this adds 1 to an even value and subtracts 1 from an odd
value; `jsXorOne` below models it that way.

Fallible operations (JS `throw`) are modelled with `Except JError`.
-/

namespace Busybot

/-- List from src/index.mjs line 71 (OEIS A000043). -/
def Known_Mersenne_Exponents : List Nat := [2, 3, 5, 7, 13, 17, 19, 31, 61, 89, 107, 127,
    521, 607, 1279, 2203, 2281, 3217, 4253, 4423, 9689, 9941, 11213, 19937,
    21701, 23209, 44497, 86243, 110503, 132049, 216091, 756839, 859433,
    1257787, 1398269, 2976221, 3021377, 6972593, 13466917, 20996011, 24036583,
    25964951, 30402457, 32582657, 37156667, 42643801, 43112609, 57885161,
    74207281]

/-- `isMersenneExponent` from src/index.mjs line 78, for a `Number` argument. -/
def isMersenneExponent (n : Nat) : Bool := Known_Mersenne_Exponents.contains n

/-- The whitelist membership test as applied to a JS number (modelled `Int`):
`Known_Mersenne_Exponents.includes(Number(n))`. -/
def isMersenneExponentI (m : Int) : Bool :=
  Known_Mersenne_Exponents.any (fun k => ((k : Int) == m))

/-- JS `x ^ Flip_Bits` with `Flip_Bits = 1n` (src/index.mjs line 85): flips the
least significant bit of a `BigInt`, i.e. adds 1 to an even value and
subtracts 1 from an odd one. -/
def jsXorOne (x : Int) : Int := if x % 2 = 0 then x + 1 else x - 1

/-- The modulus `(1n << modulusLog2) - 1n` from `initMathsFunctions`
(src/index.mjs line 100). -/
def modulus (n : Nat) : Int := 2 ^ n - 1

/-- Square-root exponent `(modulus + 1n) / 4n` (src/index.mjs line 103). -/
def exponent (n : Nat) : Int := (modulus n + 1) / 4

/-- The constant `exponentLog2 = Number(modulusLog2) - 2` (src/index.mjs
line 104). -/
def exponentLog2 (n : Nat) : Nat := n - 2

/-- Barrett constant `barrett_R = (1n << (2n*barrett_n)) / modulus`
(src/index.mjs line 111); `barrett_n = n`. -/
def barrett_R (n : Nat) : Int := 2 ^ (2 * n) / modulus n

/-- The value of `barrettMul`'s local `x` before the conditional subtraction
(src/index.mjs lines 116-119): `w = a*b`; `x2 = (w >> (n-1)) * barrett_R`;
`x3 = x2 >> (n+1)`; `x = w - x3*modulus`. -/
def barrettMulPre (n : Nat) (a b : Int) : Int :=
  let w := a * b
  let x2 := (w / 2 ^ (n - 1)) * barrett_R n
  let x3 := x2 / 2 ^ (n + 1)
  w - x3 * modulus n

/-- `barrettMul` from src/index.mjs lines 115-124: the pre-correction value
followed by `if (x >= modulus) x -= modulus`. -/
def barrettMul (n : Nat) (a b : Int) : Int :=
  let x := barrettMulPre n a b
  if modulus n ≤ x then x - modulus n else x

/-- The value of `barrettFastSquare`'s local `x` before the conditional
subtraction (src/index.mjs lines 137-143): `w = a*a`; `x2 = w >> (n-1)`;
`x2m = (x2 << n) + x2`; `x3 = x2m >> (n+1)`; `x = w - ((x3 << n) - x3)`. -/
def barrettFastSquarePre (n : Nat) (a : Int) : Int :=
  let w := a * a
  let x2 := w / 2 ^ (n - 1)
  let x2m := (x2 * 2 ^ n) + x2
  let x3 := x2m / 2 ^ (n + 1)
  w - ((x3 * 2 ^ n) - x3)

/-- `barrettFastSquare` from src/index.mjs lines 136-148. -/
def barrettFastSquare (n : Nat) (a : Int) : Int :=
  let x := barrettFastSquarePre n a
  if modulus n ≤ x then x - modulus n else x

/-- The `while (e > 0n)` loop of `fastModPow` (src/index.mjs lines 171-180):
per iteration, conditionally multiply `result` by `base` when the low bit of
`e` is set, shift `e` right, and square `base`. -/
def fastModPowLoop (n : Nat) (e : Nat) (result base : Int) : Int :=
  if e = 0 then result
  else
    fastModPowLoop n (e / 2)
      (if e % 2 = 1 then barrettMul n result base else result)
      (barrettFastSquare n base)
termination_by e
decreasing_by exact Nat.div_lt_self (Nat.pos_of_ne_zero (by assumption)) (by norm_num)

/-- Fuel-driven halving count; the fuel only makes the recursion structural
(`e / 2 < e` keeps it honest, see `fastModPowIters_unfold`). -/
def fastModPowItersFuel : Nat → Nat → Nat
  | 0, _ => 0
  | fuel + 1, e => if e = 0 then 0 else fastModPowItersFuel fuel (e / 2) + 1

/-- Number of iterations the `while (e > 0n)` loop of `fastModPow` performs
when started on the value `e`; same guard and same decreasing argument as
`fastModPowLoop`, one `barrettFastSquare` call per iteration. -/
def fastModPowIters (e : Nat) : Nat := fastModPowItersFuel e e

/-- `fastModPow` from src/index.mjs lines 163-183; throws (here `none`) when
`base >= modulus || base < 0n`. -/
def fastModPow (n : Nat) (base : Int) : Option Int :=
  if modulus n ≤ base ∨ base < 0 then none
  else some (fastModPowLoop n (exponent n).toNat 1 base)

/-- The `while (n > 0)` loop of `fastFixedExpPow` (src/index.mjs
lines 194-198): square `base` a fixed number of times. -/
def fastFixedExpPowLoop (n : Nat) : Nat → Int → Int
  | 0, base => base
  | k + 1, base => fastFixedExpPowLoop n k (barrettFastSquare n base)

/-- `fastFixedExpPow` from src/index.mjs lines 193-200: `exponentLog2`
repeated applications of `barrettFastSquare`. -/
def fastFixedExpPow (n : Nat) (base : Int) : Int :=
  fastFixedExpPowLoop n (exponentLog2 n) base

/-! ### JS value layer: strings, field shapes and errors -/

/-- Hex-digit test matching the character class `[0-9a-fA-F]` of the regex in
src/index.mjs line 303. -/
def isHexDigit (c : Char) : Bool :=
  c.isDigit || ('a' ≤ c && c ≤ 'f') || ('A' ≤ c && c ≤ 'F')

/-- Numeric value of one hex digit. -/
def hexDigitVal (c : Char) : Nat :=
  if c.isDigit then c.toNat - '0'.toNat
  else if 'a' ≤ c then c.toNat - 'a'.toNat + 10
  else c.toNat - 'A'.toNat + 10

/-- Value of a big-endian string of hex digits, accumulator style. -/
def hexValAux (acc : Nat) : List Char → Nat
  | [] => acc
  | c :: cs => hexValAux (acc * 16 + hexDigitVal c) cs

/-- Value of a big-endian string of decimal digits, accumulator style. -/
def decValAux (acc : Nat) : List Char → Nat
  | [] => acc
  | c :: cs => decValAux (acc * 10 + (c.toNat - '0'.toNat)) cs

/-- Test for the regex `/^0x[0-9a-fA-F]+$/` used to validate solutions
(src/index.mjs line 303): literal lowercase `0x` followed by one or more hex
digits. -/
def isHexLiteral (s : String) : Bool :=
  match s.data with
  | '0' :: 'x' :: rest => (!rest.isEmpty) && rest.all isHexDigit
  | _ => false

/-- The JS host conversion `BigInt(string)`, on the string forms this library
produces and consumes: `0x`-prefixed hex literals and (possibly negated)
decimal literals, with the empty string converting to 0 as in JS.  Other host
string forms (binary/octal literals, surrounding whitespace) are not
exercised here and are mapped, like non-numeric strings, to `none` (a JS
`SyntaxError`). -/
def jsBigInt (s : String) : Option Int :=
  match s.data with
  | '0' :: 'x' :: rest =>
      if (!rest.isEmpty) && rest.all isHexDigit then some (hexValAux 0 rest) else none
  | '-' :: rest =>
      if (!rest.isEmpty) && rest.all Char.isDigit then some (-(decValAux 0 rest)) else none
  | ds => if ds.all Char.isDigit then some (decValAux 0 ds) else none

/-- Lowercase hex digit character for a value below 16, as produced by JS
`BigInt.prototype.toString(16)`. -/
def hexDigitChar (d : Nat) : Char :=
  if d < 10 then Char.ofNat ('0'.toNat + d) else Char.ofNat ('a'.toNat + d - 10)

/-- Fuel-driven hex digit expansion (structural recursion; `v / 16 < v`
justifies the fuel, see `natToHexDigits_unfold`). -/
def natToHexDigitsFuel : Nat → Nat → List Char
  | 0, _ => []
  | fuel + 1, v => if v = 0 then [] else natToHexDigitsFuel fuel (v / 16) ++ [hexDigitChar (v % 16)]

/-- Hex digits of a positive natural, most significant first. -/
def natToHexDigits (v : Nat) : List Char := natToHexDigitsFuel v v

/-- JS `v.toString(16)` for a non-negative `BigInt`: lowercase hex digits
with no leading zeros, and `"0"` for zero. -/
def natToHex (v : Nat) : String :=
  if v = 0 then "0" else String.mk (natToHexDigits v)

/-- One JS object property as found by `typeof` checks: missing (JS
`undefined`), a string, an (integral) number, or a value of any other
runtime type. -/
inductive JField where
  | absent : JField
  | fstr : String → JField
  | fnum : Int → JField
  | fother : JField
deriving DecidableEq, Repr

/-- The properties of a challenge object read by `solve` and `verify`. -/
structure JChallenge where
  c : JField
  d : JField
  m : JField
deriving DecidableEq, Repr

/-- The property of a solution object read by `verify`. -/
structure JSolutionRec where
  s : JField
deriving DecidableEq, Repr

/-- The `challenge` argument as a JS value: `undefined`, `null`, a non-object
primitive, or an object. -/
inductive ChallengeArg where
  | undef : ChallengeArg
  | null : ChallengeArg
  | prim : ChallengeArg
  | obj : JChallenge → ChallengeArg
deriving DecidableEq, Repr

/-- The `solution` argument as a JS value. -/
inductive SolutionArg where
  | undef : SolutionArg
  | null : SolutionArg
  | prim : SolutionArg
  | obj : JSolutionRec → SolutionArg
deriving DecidableEq, Repr

/-- The distinct failures thrown by `solve` and `verify`
(src/index.mjs lines 262, 273, 298, 304, 95) plus the host `SyntaxError`
that `BigInt(string)` raises on a non-numeric string. -/
inductive JError where
  | MalformedChallenge : JError
  | OutOfRange : JError
  | MalformedSolution : JError
  | UnknownExpo : JError
  | SyntaxErr : JError
deriving DecidableEq, Repr

/-- The solution record `{s: ...}` returned by `solve`. -/
structure Solution where
  s : String
deriving DecidableEq, Repr

/-- The `for (let i = 0; i < difficulty; i++)` loop of `solve`
(src/index.mjs lines 276-282): each iteration replaces `solution` by
`fastFixedExpPow(solution) ^ Flip_Bits`. -/
def solveLoop (n : Nat) : Nat → Int → Int
  | 0, v => v
  | i + 1, v => solveLoop n i (jsXorOne (fastFixedExpPow n v))

/-- `solve` from src/index.mjs lines 256-284 (without the optional progress
callback, which does not affect the returned value): shape validation, then
`BigInt(challenge.c)`, then `initMathsFunctions` (whitelist check), then the
range check `solution > modulus || solution < 0n`, then the loop, and
finally hex encoding of the result. -/
def solve (challenge : ChallengeArg) : Except JError Solution :=
  match challenge with
  | ChallengeArg.obj ⟨JField.fstr cs, JField.fnum d, JField.fnum m⟩ =>
    match jsBigInt cs with
    | none => Except.error JError.SyntaxErr
    | some sol0 =>
      if isMersenneExponentI m then
        let n := m.toNat
        if modulus n < sol0 ∨ sol0 < 0 then Except.error JError.OutOfRange
        else Except.ok ⟨"0x" ++ natToHex (solveLoop n d.toNat sol0).toNat⟩
      else Except.error JError.UnknownExpo
  | _ => Except.error JError.MalformedChallenge

/-- The `for (let i = 0; i < difficulty; i++)` loop of `verify`
(src/index.mjs lines 316-318): each iteration replaces `check` by
`barrettFastSquare(check ^ Flip_Bits)`. -/
def verifyLoop (n : Nat) : Nat → Int → Int
  | 0, check => check
  | i + 1, check => verifyLoop n i (barrettFastSquare n (jsXorOne check))

/-- `verify` from src/index.mjs lines 292-327: challenge shape validation,
solution shape and regex validation, `BigInt(solution.s)` (which cannot fail
after the regex), `initMathsFunctions`, the range check returning `false`,
the loop, and the final comparison of `check` against `BigInt(challenge.c)`
and `modulus - BigInt(challenge.c)`. -/
def verify (challenge : ChallengeArg) (solution : SolutionArg) : Except JError Bool :=
  match challenge with
  | ChallengeArg.obj ⟨JField.fstr cs, JField.fnum d, JField.fnum m⟩ =>
    match solution with
    | SolutionArg.obj ⟨JField.fstr ss⟩ =>
      if isHexLiteral ss then
        match jsBigInt ss with
        | none => Except.error JError.SyntaxErr
        | some check =>
          if isMersenneExponentI m then
            let n := m.toNat
            if modulus n ≤ check ∨ check < 0 then Except.ok false
            else
              let final := verifyLoop n d.toNat check
              match jsBigInt cs with
              | none => Except.error JError.SyntaxErr
              | some dc =>
                Except.ok (decide (final = dc ∨ final = modulus n - dc))
          else Except.error JError.UnknownExpo
      else Except.error JError.MalformedSolution
    | _ => Except.error JError.MalformedSolution
  | _ => Except.error JError.MalformedChallenge

/-- The byte length chosen by `generate` (src/index.mjs line 235). -/
def challengeByteLength (m : Nat) : Nat :=
  if m < 128 then m / 8 else 16

/-- The exponent validation performed by `generate` (src/index.mjs
lines 224-229): whitelisted and not below 61. -/
def generateAcceptsExpo (m : Nat) : Bool :=
  isMersenneExponent m && !(m < 61)

deriving instance DecidableEq for Except

/-! ### Fuel elimination for the structural recursions -/

theorem fastModPowItersFuel_mono :
    ∀ (f1 : Nat) (f2 e : Nat), e ≤ f1 → e ≤ f2 →
      fastModPowItersFuel f1 e = fastModPowItersFuel f2 e := by
  intro f1
  induction f1 with
  | zero =>
    intro f2 e h1 h2
    have : e = 0 := by omega
    subst this
    cases f2 <;> rfl
  | succ f1 ih =>
    intro f2 e h1 h2
    by_cases he : e = 0
    · subst he
      cases f2 <;> rfl
    · obtain ⟨f2', rfl⟩ : ∃ f2', f2 = f2' + 1 := ⟨f2 - 1, by omega⟩
      show (if e = 0 then 0 else fastModPowItersFuel f1 (e / 2) + 1) = _
      rw [if_neg he]
      show _ = (if e = 0 then 0 else fastModPowItersFuel f2' (e / 2) + 1)
      rw [if_neg he, ih f2' (e / 2) (by omega) (by omega)]

theorem fastModPowIters_unfold (e : Nat) :
    fastModPowIters e = if e = 0 then 0 else fastModPowIters (e / 2) + 1 := by
  unfold fastModPowIters
  by_cases h : e = 0
  · subst h
    rfl
  · rw [if_neg h]
    obtain ⟨e', rfl⟩ : ∃ e', e = e' + 1 := ⟨e - 1, by omega⟩
    show (if e' + 1 = 0 then 0 else fastModPowItersFuel e' ((e' + 1) / 2) + 1) = _
    rw [if_neg h]
    rw [fastModPowItersFuel_mono e' ((e' + 1) / 2) ((e' + 1) / 2) (by omega) (le_refl _)]

theorem natToHexDigitsFuel_mono :
    ∀ (f1 : Nat) (f2 v : Nat), v ≤ f1 → v ≤ f2 →
      natToHexDigitsFuel f1 v = natToHexDigitsFuel f2 v := by
  intro f1
  induction f1 with
  | zero =>
    intro f2 v h1 h2
    have : v = 0 := by omega
    subst this
    cases f2 <;> rfl
  | succ f1 ih =>
    intro f2 v h1 h2
    by_cases hv : v = 0
    · subst hv
      cases f2 <;> rfl
    · obtain ⟨f2', rfl⟩ : ∃ f2', f2 = f2' + 1 := ⟨f2 - 1, by omega⟩
      show (if v = 0 then [] else natToHexDigitsFuel f1 (v / 16) ++ [hexDigitChar (v % 16)]) = _
      rw [if_neg hv]
      show _ = (if v = 0 then [] else natToHexDigitsFuel f2' (v / 16) ++ [hexDigitChar (v % 16)])
      rw [if_neg hv, ih f2' (v / 16) (by omega) (by omega)]

theorem natToHexDigits_unfold (v : Nat) :
    natToHexDigits v
      = if v = 0 then [] else natToHexDigits (v / 16) ++ [hexDigitChar (v % 16)] := by
  unfold natToHexDigits
  by_cases h : v = 0
  · subst h
    rfl
  · rw [if_neg h]
    obtain ⟨v', rfl⟩ : ∃ v', v = v' + 1 := ⟨v - 1, by omega⟩
    show (if v' + 1 = 0 then [] else natToHexDigitsFuel v' ((v' + 1) / 16) ++ [hexDigitChar ((v' + 1) % 16)]) = _
    rw [if_neg h]
    rw [natToHexDigitsFuel_mono v' ((v' + 1) / 16) ((v' + 1) / 16) (by omega) (le_refl _)]

/-! ### Arithmetic facts about the derived constants -/

theorem two_le_of_mem_whitelist {n : Nat} (h : n ∈ Known_Mersenne_Exponents) : 2 ≤ n := by
  have hall : ∀ x ∈ Known_Mersenne_Exponents, 2 ≤ x := by decide
  exact hall n h

theorem four_le_two_pow {n : Nat} (hn : 2 ≤ n) : (4 : Int) ≤ 2 ^ n := by
  calc (4 : Int) = 2 ^ 2 := by norm_num
  _ ≤ 2 ^ n := pow_le_pow_right₀ (by norm_num) hn

theorem modulus_pos {n : Nat} (hn : 2 ≤ n) : (0 : Int) < modulus n := by
  have := four_le_two_pow hn
  unfold modulus
  linarith

/-- The Barrett constant for a Mersenne modulus is `2^n + 1` exactly. -/
theorem barrett_R_eq {n : Nat} (hn : 2 ≤ n) : barrett_R n = 2 ^ n + 1 := by
  have h4 := four_le_two_pow hn
  have hb : (0 : Int) < 2 ^ n - 1 := by linarith
  have hsq : (2 : Int) ^ (2 * n) = 2 ^ n * 2 ^ n := by
    rw [two_mul, pow_add]
  unfold barrett_R modulus
  refine ((Int.ediv_emod_unique (r := 1) hb).mpr ⟨?_, by norm_num, by linarith⟩).1
  rw [hsq]
  ring

theorem two_pow_split {n : Nat} (hn : 2 ≤ n) :
    (2 : Int) ^ n = 2 * 2 ^ (n - 1) ∧ (2 : Int) ^ (n + 1) = 4 * 2 ^ (n - 1) := by
  constructor
  · conv_lhs => rw [show n = n - 1 + 1 by omega]
    rw [pow_succ]
    ring
  · rw [show n + 1 = n - 1 + 2 by omega, pow_add]
    ring

/-- Core Barrett bound: with `P = 2^(n-1)`, modulus `2P - 1` and Barrett
constant `2P + 1`, the pre-correction value `w - q*(2P-1)` lies in
`[0, 2*(2P-1))` and is congruent to `w`, for any product `w ≤ (2P-1)^2`. -/
theorem barrettPre_core (P w pre : Int) (hP : 2 ≤ P) (hw0 : 0 ≤ w)
    (hw : w ≤ (2 * P - 1) ^ 2)
    (hpre : pre = w - w / P * (2 * P + 1) / (4 * P) * (2 * P - 1)) :
    0 ≤ pre ∧ pre < 2 * (2 * P - 1) ∧ pre % (2 * P - 1) = w % (2 * P - 1) := by
  have hPpos : (0 : Int) < P := by linarith
  have h4P : (0 : Int) < 4 * P := by linarith
  have hu0 : 0 ≤ w / P := Int.ediv_nonneg hw0 (le_of_lt hPpos)
  have hu1 : w / P * P ≤ w := Int.ediv_mul_le w (by linarith)
  have hu2 : w < (w / P + 1) * P := Int.lt_ediv_add_one_mul_self w hPpos
  have hq1 : w / P * (2 * P + 1) / (4 * P) * (4 * P) ≤ w / P * (2 * P + 1) :=
    Int.ediv_mul_le _ (by linarith)
  have hq2 : w / P * (2 * P + 1) < (w / P * (2 * P + 1) / (4 * P) + 1) * (4 * P) :=
    Int.lt_ediv_add_one_mul_self _ h4P
  have hq0 : 0 ≤ w / P * (2 * P + 1) / (4 * P) :=
    Int.ediv_nonneg (mul_nonneg hu0 (by linarith)) (by linarith)
  set u := w / P with hu
  set q := u * (2 * P + 1) / (4 * P) with hq
  have lower : q * (2 * P - 1) ≤ w := by
    have step1 : q * (4 * P) * (2 * P - 1) ≤ u * (2 * P + 1) * (2 * P - 1) :=
      mul_le_mul_of_nonneg_right hq1 (by linarith)
    have step3 : u * P * (4 * P) ≤ w * (4 * P) :=
      mul_le_mul_of_nonneg_right hu1 (by linarith)
    have chain : q * (2 * P - 1) * (4 * P) ≤ w * (4 * P) := by nlinarith [hu0]
    exact le_of_mul_le_mul_right chain h4P
  have hD : q ≤ 2 * P * P - 2 := by
    have d1 : q * (4 * P) * P ≤ u * (2 * P + 1) * P :=
      mul_le_mul_of_nonneg_right hq1 (le_of_lt hPpos)
    have d2 : u * P * (2 * P + 1) ≤ w * (2 * P + 1) :=
      mul_le_mul_of_nonneg_right hu1 (by linarith)
    have d3 : w * (2 * P + 1) ≤ (2 * P - 1) ^ 2 * (2 * P + 1) :=
      mul_le_mul_of_nonneg_right hw (by linarith)
    have hP2 : (0 : Int) ≤ P - 2 := by linarith
    have d4 : (2 * P - 1) ^ 2 * (2 * P + 1) ≤ (2 * P * P - 2) * (4 * P * P) := by
      nlinarith [mul_nonneg (mul_nonneg (mul_nonneg hP2 (le_of_lt hPpos)) (le_of_lt hPpos)) (le_of_lt hPpos), mul_nonneg (mul_nonneg hP2 (le_of_lt hPpos)) (le_of_lt hPpos), mul_nonneg hP2 (le_of_lt hPpos)]
    have chain : q * (4 * P * P) ≤ (2 * P * P - 2) * (4 * P * P) := by nlinarith
    exact le_of_mul_le_mul_right chain (by positivity)
  have upper : w < (q + 2) * (2 * P - 1) := by
    have c1 : w - P + 1 ≤ u * P := by linarith
    have c2 : (w - P + 1) * (2 * P + 1) ≤ u * P * (2 * P + 1) :=
      mul_le_mul_of_nonneg_right c1 (by linarith)
    have c3 : u * (2 * P + 1) * P ≤ (4 * P * q + 4 * P - 1) * P :=
      mul_le_mul_of_nonneg_right (by linarith) (le_of_lt hPpos)
    have hC : 2 * P * w + w ≤ 4 * P * P * q + 6 * P * P - 2 * P - 1 := by nlinarith
    have final1 : (2 * P + 1) * w ≤ (2 * P + 1) * ((2 * P - 1) * q + 4 * P - 3) := by
      nlinarith
    have final2 : w ≤ (2 * P - 1) * q + 4 * P - 3 :=
      le_of_mul_le_mul_left final1 (by linarith)
    nlinarith
  refine ⟨by rw [hpre]; linarith, by rw [hpre]; linarith, ?_⟩
  rw [hpre]
  conv_rhs => rw [show w = w - q * (2 * P - 1) + (2 * P - 1) * q by ring]
  rw [Int.add_mul_emod_self_left]

theorem two_le_two_pow_pred {n : Nat} (hn : 2 ≤ n) : (2 : Int) ≤ 2 ^ (n - 1) := by
  calc (2 : Int) = 2 ^ 1 := by norm_num
  _ ≤ 2 ^ (n - 1) := pow_le_pow_right₀ (by norm_num) (by omega)

theorem barrettMulPre_eq_core {n : Nat} (hn : 2 ≤ n) (a b : Int) :
    barrettMulPre n a b =
      a * b - a * b / 2 ^ (n - 1) * (2 * 2 ^ (n - 1) + 1) / (4 * 2 ^ (n - 1)) *
        (2 * 2 ^ (n - 1) - 1) := by
  obtain ⟨e1, e2⟩ := two_pow_split hn
  simp only [barrettMulPre, modulus]
  rw [barrett_R_eq hn, e1, e2]

theorem barrettMulPre_spec {n : Nat} (hn : 2 ≤ n) {a b : Int} (ha0 : 0 ≤ a)
    (haM : a ≤ modulus n) (hb0 : 0 ≤ b) (hbM : b ≤ modulus n) :
    0 ≤ barrettMulPre n a b ∧ barrettMulPre n a b < 2 * modulus n ∧
      barrettMulPre n a b % modulus n = (a * b) % modulus n := by
  have hP := two_le_two_pow_pred hn
  obtain ⟨e1, _⟩ := two_pow_split hn
  have hMP : modulus n = 2 * 2 ^ (n - 1) - 1 := by unfold modulus; rw [e1]
  have hw : a * b ≤ (2 * 2 ^ (n - 1) - 1) ^ 2 := by
    rw [← hMP, sq]
    exact mul_le_mul haM hbM hb0 (le_of_lt (modulus_pos hn))
  have h := barrettPre_core (2 ^ (n - 1)) (a * b) (barrettMulPre n a b) hP
    (mul_nonneg ha0 hb0) hw (barrettMulPre_eq_core hn a b)
  rw [← hMP] at h
  exact h

theorem barrettMul_correct {n : Nat} (hn : 2 ≤ n) {a b : Int} (ha0 : 0 ≤ a)
    (haM : a ≤ modulus n) (hb0 : 0 ≤ b) (hbM : b ≤ modulus n) :
    barrettMul n a b = (a * b) % modulus n := by
  obtain ⟨h0, h2, hmod⟩ := barrettMulPre_spec hn ha0 haM hb0 hbM
  simp only [barrettMul]
  by_cases hcase : modulus n ≤ barrettMulPre n a b
  · rw [if_pos hcase, ← hmod]
    have hsub : (barrettMulPre n a b - modulus n) % modulus n
        = barrettMulPre n a b % modulus n := by
      conv_rhs => rw [show barrettMulPre n a b
        = barrettMulPre n a b - modulus n + modulus n * 1 by ring]
      rw [Int.add_mul_emod_self_left]
    rw [← hsub]
    exact (Int.emod_eq_of_lt (by linarith) (by linarith)).symm
  · rw [if_neg hcase, ← hmod]
    exact (Int.emod_eq_of_lt h0 (by linarith [not_le.mp hcase])).symm

/-- The specialized squaring agrees with the generic Barrett multiplication at
equal operands: the shift-and-add route computes the same quotient estimate. -/
theorem barrettFastSquarePre_eq {n : Nat} (hn : 2 ≤ n) (a : Int) :
    barrettFastSquarePre n a = barrettMulPre n a a := by
  simp only [barrettFastSquarePre, barrettMulPre, modulus]
  rw [barrett_R_eq hn]
  rw [show a * a / 2 ^ (n - 1) * 2 ^ n + a * a / 2 ^ (n - 1)
    = a * a / 2 ^ (n - 1) * (2 ^ n + 1) by ring]
  ring

theorem barrettFastSquare_eq_mul {n : Nat} (hn : 2 ≤ n) (a : Int) :
    barrettFastSquare n a = barrettMul n a a := by
  simp only [barrettFastSquare, barrettMul, barrettFastSquarePre_eq hn]

theorem barrettFastSquare_correct {n : Nat} (hn : 2 ≤ n) {a : Int} (ha0 : 0 ≤ a)
    (haM : a ≤ modulus n) :
    barrettFastSquare n a = (a * a) % modulus n := by
  rw [barrettFastSquare_eq_mul hn]
  exact barrettMul_correct hn ha0 haM ha0 haM

theorem barrettMul_range {n : Nat} (hn : 2 ≤ n) {a b : Int} (ha0 : 0 ≤ a)
    (haM : a ≤ modulus n) (hb0 : 0 ≤ b) (hbM : b ≤ modulus n) :
    0 ≤ barrettMul n a b ∧ barrettMul n a b < modulus n := by
  rw [barrettMul_correct hn ha0 haM hb0 hbM]
  exact ⟨Int.emod_nonneg _ (by linarith [modulus_pos hn]),
    Int.emod_lt_of_pos _ (modulus_pos hn)⟩

theorem barrettFastSquare_range {n : Nat} (hn : 2 ≤ n) {a : Int} (ha0 : 0 ≤ a)
    (haM : a ≤ modulus n) :
    0 ≤ barrettFastSquare n a ∧ barrettFastSquare n a < modulus n := by
  rw [barrettFastSquare_eq_mul hn]
  exact barrettMul_range hn ha0 haM ha0 haM

/-! ### The square-root exponent and the two exponentiation routines -/

/-- The square-root exponent `(modulus + 1) / 4` is exactly `2^(n-2)`. -/
theorem exponent_eq {n : Nat} (hn : 2 ≤ n) : exponent n = 2 ^ (n - 2) := by
  have e : (2 : Int) ^ n = 2 ^ (n - 2) * 4 := by
    conv_lhs => rw [show n = n - 2 + 2 by omega]
    rw [pow_add]
    norm_num
  unfold exponent modulus
  rw [sub_add_cancel, e]
  exact Int.mul_ediv_cancel _ (by norm_num)

theorem exponent_toNat {n : Nat} (hn : 2 ≤ n) : (exponent n).toNat = 2 ^ (n - 2) := by
  rw [exponent_eq hn]
  rw [show ((2 : Int) ^ (n - 2)) = ((2 ^ (n - 2) : Nat) : Int) by push_cast; ring]
  exact Int.toNat_natCast _

theorem fastFixedExpPowLoop_spec {n : Nat} (hn : 2 ≤ n) :
    ∀ (k : Nat) {b : Int}, 0 ≤ b → b < modulus n →
      fastFixedExpPowLoop n k b = b ^ (2 ^ k) % modulus n := by
  intro k
  induction k with
  | zero =>
    intro b hb0 hbM
    simp only [fastFixedExpPowLoop, pow_zero, pow_one]
    exact (Int.emod_eq_of_lt hb0 hbM).symm
  | succ k ih =>
    intro b hb0 hbM
    have hb' := barrettFastSquare_range hn hb0 (le_of_lt hbM)
    show fastFixedExpPowLoop n k (barrettFastSquare n b) = _
    rw [ih hb'.1 hb'.2, barrettFastSquare_correct hn hb0 (le_of_lt hbM)]
    show Int.ModEq _ _ _
    calc (b * b % modulus n) ^ 2 ^ k
        ≡ (b * b) ^ 2 ^ k [ZMOD modulus n] := (Int.mod_modEq _ _).pow _
    _ = b ^ 2 ^ (k + 1) := by rw [show b * b = b ^ 2 by ring, ← pow_mul, pow_succ]; ring_nf

theorem fastFixedExpPow_spec {n : Nat} (hn : 2 ≤ n) {b : Int} (hb0 : 0 ≤ b)
    (hbM : b < modulus n) :
    fastFixedExpPow n b = b ^ (2 ^ (n - 2)) % modulus n :=
  fastFixedExpPowLoop_spec hn (n - 2) hb0 hbM

theorem fastFixedExpPow_range {n : Nat} (hn : 2 ≤ n) {b : Int} (hb0 : 0 ≤ b)
    (hbM : b < modulus n) :
    0 ≤ fastFixedExpPow n b ∧ fastFixedExpPow n b < modulus n := by
  rw [fastFixedExpPow_spec hn hb0 hbM]
  exact ⟨Int.emod_nonneg _ (by linarith [modulus_pos hn]),
    Int.emod_lt_of_pos _ (modulus_pos hn)⟩

theorem fastModPowLoop_spec {n : Nat} (hn : 2 ≤ n) :
    ∀ (e : Nat) {r b : Int}, 0 ≤ r → r < modulus n → 0 ≤ b → b < modulus n →
      fastModPowLoop n e r b = (r * b ^ e) % modulus n := by
  intro e
  induction e using Nat.strong_induction_on with
  | _ e ih =>
    intro r b hr0 hrM hb0 hbM
    rw [fastModPowLoop]
    by_cases he : e = 0
    · subst he
      rw [if_pos rfl, pow_zero, mul_one]
      exact (Int.emod_eq_of_lt hr0 hrM).symm
    · rw [if_neg he]
      have hlt := Nat.div_lt_self (Nat.pos_of_ne_zero he) one_lt_two
      have hb' := barrettFastSquare_range hn hb0 (le_of_lt hbM)
      have hbsq := barrettFastSquare_correct hn hb0 (le_of_lt hbM)
      by_cases hodd : e % 2 = 1
      · rw [if_pos hodd]
        have hr' := barrettMul_range hn hr0 (le_of_lt hrM) hb0 (le_of_lt hbM)
        rw [ih (e / 2) hlt hr'.1 hr'.2 hb'.1 hb'.2, hbsq,
          barrettMul_correct hn hr0 (le_of_lt hrM) hb0 (le_of_lt hbM)]
        show Int.ModEq _ _ _
        calc (r * b % modulus n) * (b * b % modulus n) ^ (e / 2)
            ≡ (r * b) * ((b * b) ^ (e / 2)) [ZMOD modulus n] :=
              (Int.mod_modEq _ _).mul ((Int.mod_modEq _ _).pow _)
        _ = r * b ^ e := by
              rw [show b * b = b ^ 2 by ring, ← pow_mul]
              conv_rhs => rw [show e = 2 * (e / 2) + 1 by omega]
              rw [pow_succ]
              ring
      · rw [if_neg hodd]
        rw [ih (e / 2) hlt hr0 hrM hb'.1 hb'.2, hbsq]
        show Int.ModEq _ _ _
        calc r * (b * b % modulus n) ^ (e / 2)
            ≡ r * ((b * b) ^ (e / 2)) [ZMOD modulus n] :=
              (Int.ModEq.refl r).mul ((Int.mod_modEq _ _).pow _)
        _ = r * b ^ e := by
              rw [show b * b = b ^ 2 by ring, ← pow_mul]
              conv_rhs => rw [show e = 2 * (e / 2) by omega]

theorem fastModPow_correct {n : Nat} (hn : 2 ≤ n) {b : Int} (hb0 : 0 ≤ b)
    (hbM : b < modulus n) :
    fastModPow n b = some (b ^ (2 ^ (n - 2)) % modulus n) := by
  unfold fastModPow
  rw [if_neg (by push_neg; exact ⟨hbM, hb0⟩)]
  rw [exponent_toNat hn, fastModPowLoop_spec hn _ (by norm_num) (by linarith [four_le_two_pow hn, show modulus n = 2 ^ n - 1 from rfl]) hb0 hbM]
  rw [one_mul]

/-! ### Number theory: Euler's criterion over a Mersenne prime modulus -/

theorem modulus_natCast (n : Nat) : ((2 ^ n - 1 : Nat) : Int) = modulus n := by
  have h1 : (1 : Nat) ≤ 2 ^ n := Nat.one_le_pow _ _ (by norm_num)
  unfold modulus
  push_cast [h1]
  ring

theorem two_pow_eq_double {n : Nat} (hn : 2 ≤ n) : (2 : Nat) ^ n = 2 * 2 ^ (n - 1) := by
  conv_lhs => rw [show n = n - 1 + 1 by omega]
  rw [pow_succ]
  ring

/-- Two integers in `[0, modulus n)` that are congruent modulo `2^n - 1` are
equal. -/
theorem int_eq_of_zmod_eq {n : Nat} (hn : 2 ≤ n) {u v : Int}
    (h : ((u : ZMod (2 ^ n - 1)) = (v : ZMod (2 ^ n - 1))))
    (hu0 : 0 ≤ u) (huM : u < modulus n) (hv0 : 0 ≤ v) (hvM : v < modulus n) : u = v := by
  rw [ZMod.intCast_eq_intCast_iff] at h
  have h2 : u % modulus n = v % modulus n := by
    rw [← modulus_natCast n]
    exact h
  rw [Int.emod_eq_of_lt hu0 huM, Int.emod_eq_of_lt hv0 hvM] at h2
  exact h2

theorem zmod_cast_emod {n : Nat} (x : Int) :
    ((x % modulus n : Int) : ZMod (2 ^ n - 1)) = ((x : Int) : ZMod (2 ^ n - 1)) := by
  have hm : Int.ModEq (((2 ^ n - 1 : Nat) : Int)) (x % modulus n) x := by
    rw [modulus_natCast n]
    exact Int.mod_modEq _ _
  exact (ZMod.intCast_eq_intCast_iff _ _ _).mpr hm

theorem zmod_cast_modulus {n : Nat} :
    ((modulus n : Int) : ZMod (2 ^ n - 1)) = 0 := by
  rw [← modulus_natCast n]
  exact_mod_cast ZMod.natCast_self _

/-- Euler's criterion, specialized: over a Mersenne prime `2^n - 1`, raising
any `c` in `[0, modulus)` to `2^(n-1) = (modulus+1)/2` and reducing returns
either `c` itself or `modulus - c` (the latter only for `c > 0`). -/
theorem euler_pm {n : Nat} (hn : 2 ≤ n) (hp : Nat.Prime (2 ^ n - 1)) {c : Int}
    (hc0 : 0 ≤ c) (hcM : c < modulus n) :
    c ^ 2 ^ (n - 1) % modulus n = c ∨
      (c ^ 2 ^ (n - 1) % modulus n = modulus n - c ∧ 0 < c) := by
  haveI : Fact (Nat.Prime (2 ^ n - 1)) := ⟨hp⟩
  haveI : NeZero (2 ^ n - 1) := ⟨hp.ne_zero⟩
  have hMpos := modulus_pos hn
  have hv0 : 0 ≤ c ^ 2 ^ (n - 1) % modulus n := Int.emod_nonneg _ (by linarith)
  have hvM : c ^ 2 ^ (n - 1) % modulus n < modulus n := Int.emod_lt_of_pos _ hMpos
  have hvcast : ((c ^ 2 ^ (n - 1) % modulus n : Int) : ZMod (2 ^ n - 1))
      = ((c : Int) : ZMod (2 ^ n - 1)) ^ 2 ^ (n - 1) := by
    rw [zmod_cast_emod]
    push_cast
    ring
  by_cases hc : c = 0
  · left
    subst hc
    rw [zero_pow (by positivity), Int.zero_emod]
  · have hcpos : 0 < c := lt_of_le_of_ne hc0 (Ne.symm hc)
    have hx0 : ((c : Int) : ZMod (2 ^ n - 1)) ≠ 0 := by
      intro h0
      rw [ZMod.intCast_zmod_eq_zero_iff_dvd] at h0
      rw [modulus_natCast n] at h0
      have := Int.le_of_dvd hcpos h0
      linarith
    have hfermat : ((c : Int) : ZMod (2 ^ n - 1)) ^ (2 ^ n - 1 - 1) = 1 :=
      ZMod.pow_card_sub_one_eq_one hx0
    set x := ((c : Int) : ZMod (2 ^ n - 1)) with hxdef
    have hdouble := two_pow_eq_double hn
    have hone : (1 : Nat) ≤ 2 ^ (n - 1) := Nat.one_le_pow _ _ (by norm_num)
    have hkey : x ^ 2 ^ (n - 1) = x ∨ x ^ 2 ^ (n - 1) = -x := by
      have he : 2 ^ (n - 1) = (2 ^ n - 1 - 1) / 2 + 1 := by omega
      have hy2 : (x ^ ((2 ^ n - 1 - 1) / 2)) ^ 2 = 1 := by
        rw [← pow_mul, show (2 ^ n - 1 - 1) / 2 * 2 = 2 ^ n - 1 - 1 by omega]
        exact hfermat
      have hfac : (x ^ ((2 ^ n - 1 - 1) / 2) - 1) * (x ^ ((2 ^ n - 1 - 1) / 2) + 1) = 0 := by
        have hexp : (x ^ ((2 ^ n - 1 - 1) / 2) - 1) * (x ^ ((2 ^ n - 1 - 1) / 2) + 1)
            = (x ^ ((2 ^ n - 1 - 1) / 2)) ^ 2 - 1 := by ring
        rw [hexp, hy2]
        ring
      rcases mul_eq_zero.mp hfac with h | h
      · left
        have hy := sub_eq_zero.mp h
        rw [he, pow_succ, hy]
        ring
      · right
        have hy := eq_neg_of_add_eq_zero_left h
        rw [he, pow_succ, hy]
        ring
    rcases hkey with h | h
    · left
      apply int_eq_of_zmod_eq hn _ hv0 hvM hc0 hcM
      · rw [hvcast]
        exact h
    · right
      refine ⟨?_, hcpos⟩
      apply int_eq_of_zmod_eq hn _ hv0 hvM (by linarith) (by linarith)
      · rw [hvcast, h]
        push_cast
        rw [zmod_cast_modulus]
        ring

/-- The Mersenne number `2^n - 1` is 3 modulo 4 for every `n ≥ 2`. -/
theorem mersenne_mod_four {n : Nat} (hn : 2 ≤ n) : (2 ^ n - 1) % 4 = 3 := by
  have h : (2 : Nat) ^ n = 4 * 2 ^ (n - 2) := by
    conv_lhs => rw [show n = n - 2 + 2 by omega]
    rw [pow_add]
    ring
  have h1 : (1 : Nat) ≤ 2 ^ (n - 2) := Nat.one_le_pow _ _ (by norm_num)
  omega

/-- Over a Mersenne prime modulus (`≡ 3 mod 4`), a square is never `-1`;
concretely, a value of `[0, modulus)` whose residue is a square cannot equal
`modulus - 1`. -/
theorem square_ne_modulus_sub_one {n : Nat} (hn : 2 ≤ n) (hp : Nat.Prime (2 ^ n - 1))
    {y : Int} (hsq : IsSquare ((y : Int) : ZMod (2 ^ n - 1))) :
    y ≠ modulus n - 1 := by
  haveI : Fact (Nat.Prime (2 ^ n - 1)) := ⟨hp⟩
  intro hy
  have hneg : ((y : Int) : ZMod (2 ^ n - 1)) = -1 := by
    rw [hy]
    push_cast
    rw [zmod_cast_modulus]
    ring
  rw [hneg] at hsq
  have := (ZMod.exists_sq_eq_neg_one_iff (p := 2 ^ n - 1)).mp hsq
  exact this (mersenne_mod_four hn)

/-! ### Hex encoding round-trip -/

theorem hexValAux_append (acc : Nat) (l1 l2 : List Char) :
    hexValAux acc (l1 ++ l2) = hexValAux (hexValAux acc l1) l2 := by
  induction l1 generalizing acc with
  | nil => rfl
  | cons c cs ih =>
    simp only [List.cons_append, hexValAux]
    exact ih _

theorem hexDigitVal_hexDigitChar {d : Nat} (hd : d < 16) :
    hexDigitVal (hexDigitChar d) = d := by
  interval_cases d <;> rfl

theorem isHexDigit_hexDigitChar {d : Nat} (hd : d < 16) :
    isHexDigit (hexDigitChar d) = true := by
  interval_cases d <;> rfl

theorem natToHexDigits_spec (v : Nat) :
    ∀ acc, hexValAux acc (natToHexDigits v) = acc * 16 ^ (natToHexDigits v).length + v := by
  induction v using Nat.strong_induction_on with
  | _ v ih =>
    intro acc
    by_cases hv : v = 0
    · subst hv
      rw [natToHexDigits_unfold]
      simp [hexValAux]
    · have hlen : (natToHexDigits v).length = (natToHexDigits (v / 16)).length + 1 := by
        conv_lhs => rw [natToHexDigits_unfold, if_neg hv]
        simp
      conv_lhs => rw [natToHexDigits_unfold, if_neg hv]
      rw [hexValAux_append,
        ih (v / 16) (Nat.div_lt_self (Nat.pos_of_ne_zero hv) (by norm_num)) acc]
      simp only [hexValAux]
      rw [hexDigitVal_hexDigitChar (Nat.mod_lt _ (by norm_num)), hlen, pow_succ]
      have := Nat.div_add_mod v 16
      ring_nf
      omega

theorem natToHexDigits_all_hex (v : Nat) :
    (natToHexDigits v).all isHexDigit = true := by
  induction v using Nat.strong_induction_on with
  | _ v ih =>
    by_cases hv : v = 0
    · subst hv
      rw [natToHexDigits_unfold]
      rfl
    · rw [natToHexDigits_unfold, if_neg hv]
      rw [List.all_append]
      rw [ih (v / 16) (Nat.div_lt_self (Nat.pos_of_ne_zero hv) (by norm_num))]
      simp [isHexDigit_hexDigitChar (Nat.mod_lt v (by norm_num) : v % 16 < 16)]

theorem natToHex_data_hex (v : Nat) :
    (natToHex v).data ≠ [] ∧ (natToHex v).data.all isHexDigit = true := by
  unfold natToHex
  by_cases hv : v = 0
  · subst hv
    exact ⟨by decide, by decide⟩
  · rw [if_neg hv]
    refine ⟨?_, natToHexDigits_all_hex v⟩
    rw [natToHexDigits_unfold, if_neg hv]
    simp

theorem natToHex_val (v : Nat) : hexValAux 0 (natToHex v).data = v := by
  unfold natToHex
  by_cases hv : v = 0
  · subst hv
    rfl
  · rw [if_neg hv]
    have := natToHexDigits_spec v 0
    simpa using this

/-- Solve's output encoding `"0x" + value.toString(16)` passes verify's regex
and decodes back to the same value. -/
theorem hex_roundtrip (v : Nat) :
    isHexLiteral ("0x" ++ natToHex v) = true ∧
      jsBigInt ("0x" ++ natToHex v) = some ((v : Nat) : Int) := by
  obtain ⟨hne, hall⟩ := natToHex_data_hex v
  have hdata : ("0x" ++ natToHex v).data = '0' :: 'x' :: (natToHex v).data := by
    rw [String.data_append]
    rfl
  have hnonempty : ((natToHex v).data.isEmpty) = false := by
    cases h : (natToHex v).data with
    | nil => exact absurd h hne
    | cons a l => rfl
  constructor
  · unfold isHexLiteral
    rw [hdata]
    simp [hnonempty, hall]
  · unfold jsBigInt
    rw [hdata]
    simp only [hnonempty, Bool.not_false, hall, Bool.and_self, if_pos]
    rw [natToHex_val]

/-! ### The solve and verify iteration chains -/

theorem jsXorOne_invol (x : Int) : jsXorOne (jsXorOne x) = x := by
  unfold jsXorOne
  split_ifs <;> omega

theorem modulus_odd {n : Nat} (hn : 2 ≤ n) : modulus n % 2 = 1 := by
  obtain ⟨e1, _⟩ := two_pow_split hn
  unfold modulus
  omega

theorem jsXorOne_mem_Icc {n : Nat} (hn : 2 ≤ n) {x : Int} (h0 : 0 ≤ x)
    (hM : x ≤ modulus n) : 0 ≤ jsXorOne x ∧ jsXorOne x ≤ modulus n := by
  have hodd := modulus_odd hn
  unfold jsXorOne
  split_ifs with h <;> omega

theorem jsXorOne_lt {n : Nat} (hn : 2 ≤ n) {x : Int} (h0 : 0 ≤ x)
    (hM : x < modulus n) (hne : x ≠ modulus n - 1) :
    0 ≤ jsXorOne x ∧ jsXorOne x < modulus n := by
  have hodd := modulus_odd hn
  unfold jsXorOne
  split_ifs with h <;> omega

theorem jsXorOne_neg_commute {n : Nat} (hn : 2 ≤ n) {y : Int} (h0 : 0 ≤ y)
    (hM : y ≤ modulus n) :
    jsXorOne (modulus n - y) = modulus n - jsXorOne y := by
  have hodd := modulus_odd hn
  unfold jsXorOne
  split_ifs with h1 h2 h2 <;> omega

theorem verifyLoop_succ_out (n : Nat) :
    ∀ (i : Nat) (c : Int),
      verifyLoop n (i + 1) c = barrettFastSquare n (jsXorOne (verifyLoop n i c)) := by
  intro i
  induction i with
  | zero => intro c; rfl
  | succ i ih =>
    intro c
    show verifyLoop n (i + 1) (barrettFastSquare n (jsXorOne c)) = _
    rw [ih]
    rfl

theorem verifyLoop_range {n : Nat} (hn : 2 ≤ n) :
    ∀ (i : Nat) {s : Int}, 0 ≤ s → s < modulus n →
      0 ≤ verifyLoop n i s ∧ verifyLoop n i s < modulus n := by
  intro i
  induction i with
  | zero => intro s h0 hM; exact ⟨h0, hM⟩
  | succ i ih =>
    intro s h0 hM
    have hx := jsXorOne_mem_Icc hn h0 (le_of_lt hM)
    have hb := barrettFastSquare_range hn hx.1 hx.2
    exact ih hb.1 hb.2

/-- Squaring the negation gives the same Barrett result. -/
theorem barrettFastSquare_neg {n : Nat} (hn : 2 ≤ n) {y : Int} (h0 : 0 ≤ y)
    (hM : y ≤ modulus n) :
    barrettFastSquare n (modulus n - y) = barrettFastSquare n y := by
  rw [barrettFastSquare_correct hn (by linarith) (by linarith),
    barrettFastSquare_correct hn h0 hM]
  show Int.ModEq _ _ _
  exact Int.modEq_iff_dvd.mpr ⟨2 * y - modulus n, by ring⟩

/-- Barrett-squaring the output of `fastFixedExpPow` recovers the input value
or its negation (Euler's criterion on `x^(2^(n-1)) = x^((modulus+1)/2)`). -/
theorem barrettFastSquare_fastFixedExpPow {n : Nat} (hn : 2 ≤ n)
    (hp : Nat.Prime (2 ^ n - 1)) {c : Int} (h0 : 0 ≤ c) (hM : c < modulus n) :
    barrettFastSquare n (fastFixedExpPow n c) = c ∨
      (barrettFastSquare n (fastFixedExpPow n c) = modulus n - c ∧ 0 < c) := by
  have hyr := fastFixedExpPow_range hn h0 hM
  rw [barrettFastSquare_correct hn hyr.1 (le_of_lt hyr.2), fastFixedExpPow_spec hn h0 hM]
  have hpow : (2 : Nat) ^ (n - 1) = 2 ^ (n - 2) + 2 ^ (n - 2) := by
    conv_lhs => rw [show n - 1 = n - 2 + 1 by omega]
    rw [pow_succ]
    ring
  have hsq : (c ^ 2 ^ (n - 2) % modulus n) * (c ^ 2 ^ (n - 2) % modulus n) % modulus n
      = c ^ 2 ^ (n - 1) % modulus n := by
    show Int.ModEq _ _ _
    calc (c ^ 2 ^ (n - 2) % modulus n) * (c ^ 2 ^ (n - 2) % modulus n)
        ≡ c ^ 2 ^ (n - 2) * c ^ 2 ^ (n - 2) [ZMOD modulus n] :=
          (Int.mod_modEq _ _).mul (Int.mod_modEq _ _)
    _ = c ^ 2 ^ (n - 1) := by rw [← pow_add, hpow]
  rw [hsq]
  exact euler_pm hn hp h0 hM

/-- The value `fastFixedExpPow` returns is a square in `ZMod (2^n - 1)`
whenever `n ≥ 3` (the loop then performs at least one squaring). -/
theorem fastFixedExpPow_isSquare {n : Nat} (hn : 3 ≤ n) {v : Int} (h0 : 0 ≤ v)
    (hM : v < modulus n) :
    IsSquare ((fastFixedExpPow n v : Int) : ZMod (2 ^ n - 1)) := by
  rw [fastFixedExpPow_spec (by omega) h0 hM, zmod_cast_emod]
  push_cast
  refine ⟨((v : Int) : ZMod (2 ^ n - 1)) ^ 2 ^ (n - 3), ?_⟩
  rw [← pow_add]
  congr 1
  conv_lhs => rw [show n - 2 = n - 3 + 1 by omega]
  rw [pow_succ]
  ring

/-- Over a Mersenne prime with `n ≥ 3`, `fastFixedExpPow` never returns
`modulus - 1`, so the following XOR stays below the modulus. -/
theorem fastFixedExpPow_ne_sub_one {n : Nat} (hn : 3 ≤ n)
    (hp : Nat.Prime (2 ^ n - 1)) {v : Int} (h0 : 0 ≤ v) (hM : v < modulus n) :
    fastFixedExpPow n v ≠ modulus n - 1 :=
  square_ne_modulus_sub_one (by omega) hp (fastFixedExpPow_isSquare hn h0 hM)

theorem solveLoop_range {n : Nat} (hn : 3 ≤ n) (hp : Nat.Prime (2 ^ n - 1)) :
    ∀ (i : Nat) {v : Int}, 0 ≤ v → v < modulus n →
      0 ≤ solveLoop n i v ∧ solveLoop n i v < modulus n := by
  intro i
  induction i with
  | zero => intro v h0 hM; exact ⟨h0, hM⟩
  | succ i ih =>
    intro v h0 hM
    have hn2 : 2 ≤ n := by omega
    have hyr := fastFixedExpPow_range hn2 h0 hM
    have hyne := fastFixedExpPow_ne_sub_one hn hp h0 hM
    have hx := jsXorOne_lt hn2 hyr.1 hyr.2 hyne
    exact ih hx.1 hx.2

/-- Undoing the solve chain: `d` verify steps applied to the result of `d`
solve steps recover the starting value or its negation. -/
theorem verifyLoop_solveLoop {n : Nat} (hn : 3 ≤ n) (hp : Nat.Prime (2 ^ n - 1)) :
    ∀ (d : Nat) {c : Int}, 0 ≤ c → c < modulus n →
      verifyLoop n d (solveLoop n d c) = c ∨
        (verifyLoop n d (solveLoop n d c) = modulus n - c ∧ 0 < c) := by
  intro d
  induction d with
  | zero => intro c h0 hM; left; rfl
  | succ d ih =>
    intro c h0 hM
    have hn2 : 2 ≤ n := by omega
    have hyr := fastFixedExpPow_range hn2 h0 hM
    have hyne := fastFixedExpPow_ne_sub_one hn hp h0 hM
    have hc1 := jsXorOne_lt hn2 hyr.1 hyr.2 hyne
    have hstep : solveLoop n (d + 1) c
        = solveLoop n d (jsXorOne (fastFixedExpPow n c)) := rfl
    rw [hstep, verifyLoop_succ_out]
    rcases ih hc1.1 hc1.2 with h | ⟨h, hpos⟩
    · rw [h, jsXorOne_invol]
      exact barrettFastSquare_fastFixedExpPow hn2 hp h0 hM
    · rw [h, jsXorOne_neg_commute hn2 hc1.1 (le_of_lt hc1.2), jsXorOne_invol,
        barrettFastSquare_neg hn2 hyr.1 (le_of_lt hyr.2)]
      exact barrettFastSquare_fastFixedExpPow hn2 hp h0 hM

/-! ### Top-level characterizations of solve and verify -/

theorem isMersenneExponentI_iff {m : Nat} :
    isMersenneExponentI (m : Int) = true ↔ m ∈ Known_Mersenne_Exponents := by
  unfold isMersenneExponentI
  rw [List.any_eq_true]
  constructor
  · rintro ⟨k, hk, hbeq⟩
    have hkm : (k : Int) = (m : Int) := by
      exact beq_iff_eq.mp hbeq
    have : k = m := by exact_mod_cast hkm
    subst this
    exact hk
  · intro hm
    exact ⟨m, hm, beq_self_eq_true _⟩

theorem solve_eq {m : Nat} (hwl : m ∈ Known_Mersenne_Exponents) {cs : String}
    {cval : Int} (hcs : jsBigInt cs = some cval) (d : Int) :
    solve (ChallengeArg.obj ⟨JField.fstr cs, JField.fnum d, JField.fnum m⟩)
      = if modulus m < cval ∨ cval < 0 then Except.error JError.OutOfRange
        else Except.ok ⟨"0x" ++ natToHex (solveLoop m d.toNat cval).toNat⟩ := by
  have hI : isMersenneExponentI ((m : Nat) : Int) = true := isMersenneExponentI_iff.mpr hwl
  simp only [solve, hcs, hI, if_true, Int.toNat_natCast]

theorem verify_eq {m : Nat} (hwl : m ∈ Known_Mersenne_Exponents) {cs ss : String}
    {cval sval : Int} (hcs : jsBigInt cs = some cval) (hss : jsBigInt ss = some sval)
    (hhex : isHexLiteral ss = true) (d : Int) :
    verify (ChallengeArg.obj ⟨JField.fstr cs, JField.fnum d, JField.fnum m⟩)
        (SolutionArg.obj ⟨JField.fstr ss⟩)
      = if modulus m ≤ sval ∨ sval < 0 then Except.ok false
        else Except.ok (decide (verifyLoop m d.toNat sval = cval ∨
            verifyLoop m d.toNat sval = modulus m - cval)) := by
  have hI : isMersenneExponentI ((m : Nat) : Int) = true := isMersenneExponentI_iff.mpr hwl
  simp only [verify, hhex, hss, hcs, hI, if_true, Int.toNat_natCast]

/-- A string passing the solution regex decodes to a non-negative value. -/
theorem jsBigInt_hex_nonneg {s : String} {v : Int} (hhex : isHexLiteral s = true)
    (h : jsBigInt s = some v) : 0 ≤ v := by
  unfold isHexLiteral at hhex
  unfold jsBigInt at h
  split at hhex
  case h_1 x rest heq =>
    rw [heq] at h
    simp only [hhex, if_true] at h
    simp at h
    rw [← h]
    exact Int.natCast_nonneg _
  case h_2 => exact absurd hhex (by simp)

/-! ### Claim theorems -/

/-- C3: for every whitelisted Mersenne exponent `n` with modulus
`M = 2^n - 1`, and for all `a, b` in `[0, M)`: `barrettMul(a, b) = a*b mod M`
and `barrettFastSquare(a) = a*a mod M`. -/
theorem C3_barrett_correct {n : Nat} (hwl : n ∈ Known_Mersenne_Exponents) {a b : Int}
    (ha0 : 0 ≤ a) (haM : a < modulus n) (hb0 : 0 ≤ b) (hbM : b < modulus n) :
    barrettMul n a b = a * b % modulus n ∧ barrettFastSquare n a = a * a % modulus n :=
  have hn := two_le_of_mem_whitelist hwl
  ⟨barrettMul_correct hn ha0 (le_of_lt haM) hb0 (le_of_lt hbM),
    barrettFastSquare_correct hn ha0 (le_of_lt haM)⟩

theorem C3_witness :
    (13 : Nat) ∈ Known_Mersenne_Exponents ∧ (0 : Int) ≤ 100 ∧ (100 : Int) < modulus 13 ∧
      (0 : Int) ≤ 55 ∧ (55 : Int) < modulus 13 ∧
      (barrettMul 13 100 55 = 100 * 55 % modulus 13 ∧
        barrettFastSquare 13 100 = 100 * 100 % modulus 13) :=
  ⟨by decide, by decide, by decide, by decide, by decide,
    C3_barrett_correct (by decide) (by decide) (by decide) (by decide) (by decide)⟩

/-- C4: for every whitelisted Mersenne exponent `n` and all `a` in `[0, M)`,
`fastFixedExpPow(a) = fastModPow(a) = a^sqrtExponent mod M`, where the square
root exponent `(M+1)/4` equals exactly `2^(n-2)`. -/
theorem C4_pow_equivalence {n : Nat} (hwl : n ∈ Known_Mersenne_Exponents) {a : Int}
    (ha0 : 0 ≤ a) (haM : a < modulus n) :
    fastModPow n a = some (fastFixedExpPow n a) ∧
      fastFixedExpPow n a = a ^ (exponent n).toNat % modulus n ∧
      exponent n = 2 ^ (n - 2) := by
  have hn := two_le_of_mem_whitelist hwl
  have hffe := fastFixedExpPow_spec hn ha0 haM
  refine ⟨?_, ?_, exponent_eq hn⟩
  · rw [fastModPow_correct hn ha0 haM, hffe]
  · rw [hffe, exponent_toNat hn]

theorem C4_witness :
    (13 : Nat) ∈ Known_Mersenne_Exponents ∧ (0 : Int) ≤ 123 ∧ (123 : Int) < modulus 13 ∧
      (fastModPow 13 123 = some (fastFixedExpPow 13 123) ∧
        fastFixedExpPow 13 123 = 123 ^ (exponent 13).toNat % modulus 13 ∧
        exponent 13 = 2 ^ (13 - 2)) :=
  ⟨by decide, by decide, by decide,
    C4_pow_equivalence (by decide) (by decide) (by decide)⟩

/-- C5: for every whitelisted Mersenne exponent `n` and inputs in `[0, M)`,
the pre-correction Barrett value `w - q*M` lies within `[0, 2M)` in both
`barrettMul` and `barrettFastSquare`, so the single conditional subtraction
brings the final result into `[0, M)`. -/
theorem C5_pre_correction_bounds {n : Nat} (hwl : n ∈ Known_Mersenne_Exponents)
    {a b : Int} (ha0 : 0 ≤ a) (haM : a < modulus n) (hb0 : 0 ≤ b) (hbM : b < modulus n) :
    (0 ≤ barrettMulPre n a b ∧ barrettMulPre n a b < 2 * modulus n) ∧
      (0 ≤ barrettFastSquarePre n a ∧ barrettFastSquarePre n a < 2 * modulus n) ∧
      (0 ≤ barrettMul n a b ∧ barrettMul n a b < modulus n) ∧
      (0 ≤ barrettFastSquare n a ∧ barrettFastSquare n a < modulus n) := by
  have hn := two_le_of_mem_whitelist hwl
  obtain ⟨h1, h2, _⟩ := barrettMulPre_spec hn ha0 (le_of_lt haM) hb0 (le_of_lt hbM)
  obtain ⟨g1, g2, _⟩ := barrettMulPre_spec hn ha0 (le_of_lt haM) ha0 (le_of_lt haM)
  refine ⟨⟨h1, h2⟩, ?_, barrettMul_range hn ha0 (le_of_lt haM) hb0 (le_of_lt hbM),
    barrettFastSquare_range hn ha0 (le_of_lt haM)⟩
  rw [barrettFastSquarePre_eq hn]
  exact ⟨g1, g2⟩

theorem C5_witness :
    (13 : Nat) ∈ Known_Mersenne_Exponents ∧ (0 : Int) ≤ 8000 ∧ (8000 : Int) < modulus 13 ∧
      (0 : Int) ≤ 7777 ∧ (7777 : Int) < modulus 13 ∧
      ((0 ≤ barrettMulPre 13 8000 7777 ∧ barrettMulPre 13 8000 7777 < 2 * modulus 13) ∧
        (0 ≤ barrettFastSquarePre 13 8000 ∧ barrettFastSquarePre 13 8000 < 2 * modulus 13) ∧
        (0 ≤ barrettMul 13 8000 7777 ∧ barrettMul 13 8000 7777 < modulus 13) ∧
        (0 ≤ barrettFastSquare 13 8000 ∧ barrettFastSquare 13 8000 < modulus 13)) :=
  ⟨by decide, by decide, by decide, by decide, by decide,
    C5_pre_correction_bounds (by decide) (by decide) (by decide) (by decide) (by decide)⟩

/-- C8 (counterexample): at the whitelisted exponent 13, the right-to-left
loop of `fastModPow` performs 12 iterations, not `exponentLog2 + 2 = 13` as
the claim states. -/
theorem C8_counterexample :
    (13 : Nat) ∈ Known_Mersenne_Exponents ∧
      fastModPowIters ((exponent 13).toNat) = 12 ∧
      exponentLog2 13 + 2 = 13 ∧
      ¬ fastModPowIters ((exponent 13).toNat) = exponentLog2 13 + 2 := by
  decide

/-- C8 (amended): for every whitelisted exponent `n`, the `while (e > 0n)`
loop of `fastModPow` on `sqrtExponent = 2^(n-2)` executes exactly
`exponentLog2 + 1 = n - 1` iterations (one `barrettFastSquare` call each)
before returning. -/
theorem C8_loop_iterations {n : Nat} (hwl : n ∈ Known_Mersenne_Exponents) :
    fastModPowIters ((exponent n).toNat) = exponentLog2 n + 1 ∧
      exponentLog2 n + 1 = n - 1 := by
  have hn := two_le_of_mem_whitelist hwl
  constructor
  · rw [exponent_toNat hn]
    have key : ∀ k : Nat, fastModPowIters (2 ^ k) = k + 1 := by
      intro k
      induction k with
      | zero => rfl
      | succ k ih =>
        rw [fastModPowIters_unfold, if_neg (by positivity),
          show (2 : Nat) ^ (k + 1) / 2 = 2 ^ k by
            rw [pow_succ]
            exact Nat.mul_div_cancel _ (by norm_num), ih]
    rw [key (n - 2)]
    rfl
  · unfold exponentLog2
    omega

theorem C8_witness :
    (13 : Nat) ∈ Known_Mersenne_Exponents ∧
      (fastModPowIters ((exponent 13).toNat) = exponentLog2 13 + 1 ∧
        exponentLog2 13 + 1 = 13 - 1) :=
  ⟨by decide, C8_loop_iterations (by decide)⟩

/-- C2: for a well-formed challenge (whitelisted exponent, decodable value)
and a well-formed solution (regex-passing hex string), verify returns true
iff the decoded `s` is in `[0, M)` and iterating
`check := barrettFastSquare(check XOR 1)` `d` times from `s` yields `c` or
`M - c`; a well-formed `s` outside `[0, M)` makes verify return `false`
rather than raise. -/
theorem C2_verify_characterization {m : Nat} (hwl : m ∈ Known_Mersenne_Exponents)
    {cs ss : String} {cval sval : Int} (d : Int)
    (hcs : jsBigInt cs = some cval) (hshex : isHexLiteral ss = true)
    (hsv : jsBigInt ss = some sval) :
    (verify (ChallengeArg.obj ⟨JField.fstr cs, JField.fnum d, JField.fnum m⟩)
        (SolutionArg.obj ⟨JField.fstr ss⟩) = Except.ok true
      ↔ 0 ≤ sval ∧ sval < modulus m ∧
          (verifyLoop m d.toNat sval = cval ∨
            verifyLoop m d.toNat sval = modulus m - cval)) ∧
    (modulus m ≤ sval →
      verify (ChallengeArg.obj ⟨JField.fstr cs, JField.fnum d, JField.fnum m⟩)
        (SolutionArg.obj ⟨JField.fstr ss⟩) = Except.ok false) := by
  have hs0 : 0 ≤ sval := jsBigInt_hex_nonneg hshex hsv
  rw [verify_eq hwl hcs hsv hshex d]
  constructor
  · by_cases h : modulus m ≤ sval ∨ sval < 0
    · rw [if_pos h]
      constructor
      · intro hh
        exact absurd hh (by simp)
      · rintro ⟨h1, h2, _⟩
        exfalso
        rcases h with h | h <;> linarith
    · rw [if_neg h]
      push_neg at h
      simp only [Except.ok.injEq, decide_eq_true_eq]
      constructor
      · intro hx
        exact ⟨hs0, h.1, hx⟩
      · rintro ⟨_, _, hx⟩
        exact hx
  · intro hge
    rw [if_pos (Or.inl hge)]

theorem C2_witness :
    (13 : Nat) ∈ Known_Mersenne_Exponents ∧ jsBigInt "0x5" = some 5 ∧
      isHexLiteral "0x3" = true ∧ jsBigInt "0x3" = some 3 ∧
      ((verify (ChallengeArg.obj ⟨JField.fstr "0x5", JField.fnum 1, JField.fnum 13⟩)
          (SolutionArg.obj ⟨JField.fstr "0x3"⟩) = Except.ok true
        ↔ 0 ≤ (3 : Int) ∧ (3 : Int) < modulus 13 ∧
            (verifyLoop 13 (1 : Int).toNat 3 = 5 ∨
              verifyLoop 13 (1 : Int).toNat 3 = modulus 13 - 5)) ∧
        (modulus 13 ≤ (3 : Int) →
          verify (ChallengeArg.obj ⟨JField.fstr "0x5", JField.fnum 1, JField.fnum 13⟩)
            (SolutionArg.obj ⟨JField.fstr "0x3"⟩) = Except.ok false)) :=
  ⟨by decide, by decide, by decide, by decide,
    C2_verify_characterization (by decide) 1 (by decide) (by decide) (by decide)⟩

/-- C6 (counterexample): the claim says solve fails with `OutOfRange` for
every decoded value `≥ M`; but at `m = 13` the challenge value
`0x1fff = 8191 = modulus 13` is accepted and solve succeeds, because the
source tests `solution > modulus`, not `>=`. -/
theorem C6_counterexample :
    jsBigInt "0x1fff" = some 8191 ∧ modulus 13 = 8191 ∧
      (13 : Nat) ∈ Known_Mersenne_Exponents ∧
      solve (ChallengeArg.obj ⟨JField.fstr "0x1fff", JField.fnum 0, JField.fnum 13⟩)
        = Except.ok ⟨"0x1fff"⟩ := by
  decide

/-- C6 (amended): for a challenge passing shape validation with whitelisted
exponent and decodable `c`, solve raises `OutOfRange` iff the decoded value
lies outside `[0, M]`, i.e. iff it is `> M` or `< 0`; it never fails for a
value in `[0, M]`. -/
theorem C6_out_of_range_iff {m : Nat} (hwl : m ∈ Known_Mersenne_Exponents)
    {cs : String} {cval : Int} (hcs : jsBigInt cs = some cval) (d : Int) :
    solve (ChallengeArg.obj ⟨JField.fstr cs, JField.fnum d, JField.fnum m⟩)
        = Except.error JError.OutOfRange ↔ (modulus m < cval ∨ cval < 0) := by
  rw [solve_eq hwl hcs d]
  by_cases h : modulus m < cval ∨ cval < 0
  · rw [if_pos h]
    simp [h]
  · rw [if_neg h]
    simp [h]

theorem C6_witness :
    (13 : Nat) ∈ Known_Mersenne_Exponents ∧ jsBigInt "0x2000" = some 8192 ∧
      (solve (ChallengeArg.obj ⟨JField.fstr "0x2000", JField.fnum 0, JField.fnum 13⟩)
          = Except.error JError.OutOfRange
        ↔ (modulus 13 < 8192 ∨ (8192 : Int) < 0)) :=
  ⟨by decide, by decide, C6_out_of_range_iff (by decide) (by decide) 0⟩

/-- C7: solve rejects `undefined`, `null`, the empty object, and every
challenge with a wrong-typed field with `MalformedChallenge`; verify, on a
shape-valid challenge, rejects a solution whose `s` is missing, not a
string, or not a `0x`-prefixed hex string with `MalformedSolution`; the
quantification over the `d` field (and over all other fields) shows the
failure is decided before any loop iteration, independently of the
difficulty. -/
theorem C7_malformed_validation :
    (solve ChallengeArg.undef = Except.error JError.MalformedChallenge) ∧
    (solve ChallengeArg.null = Except.error JError.MalformedChallenge) ∧
    (solve (ChallengeArg.obj ⟨JField.absent, JField.absent, JField.absent⟩)
      = Except.error JError.MalformedChallenge) ∧
    (∀ (cf df mf : JField),
      (¬ ∃ (cs : String) (dv mv : Int),
        cf = JField.fstr cs ∧ df = JField.fnum dv ∧ mf = JField.fnum mv) →
      solve (ChallengeArg.obj ⟨cf, df, mf⟩) = Except.error JError.MalformedChallenge) ∧
    (∀ (cs : String) (d mv : Int) (sf : JField),
      ((∀ ssStr : String, sf ≠ JField.fstr ssStr) ∨
        (∃ ssStr : String, sf = JField.fstr ssStr ∧ isHexLiteral ssStr = false)) →
      verify (ChallengeArg.obj ⟨JField.fstr cs, JField.fnum d, JField.fnum mv⟩)
        (SolutionArg.obj ⟨sf⟩) = Except.error JError.MalformedSolution) ∧
    (∀ (cs : String) (d mv : Int),
      verify (ChallengeArg.obj ⟨JField.fstr cs, JField.fnum d, JField.fnum mv⟩)
        SolutionArg.undef = Except.error JError.MalformedSolution ∧
      verify (ChallengeArg.obj ⟨JField.fstr cs, JField.fnum d, JField.fnum mv⟩)
        SolutionArg.null = Except.error JError.MalformedSolution) := by
  refine ⟨rfl, rfl, rfl, ?_, ?_, ?_⟩
  · intro cf df mf hshape
    cases cf <;> cases df <;> cases mf <;> first
      | rfl
      | exact absurd ⟨_, _, _, rfl, rfl, rfl⟩ hshape
  · intro cs d mv sf hbad
    cases sf with
    | absent => rfl
    | fnum v => rfl
    | fother => rfl
    | fstr ssStr =>
      rcases hbad with h | ⟨ssStr2, heq, hfalse⟩
      · exact absurd rfl (h ssStr)
      · cases heq
        simp only [verify, hfalse, Bool.false_eq_true, if_false]
  · intro cs d mv
    exact ⟨rfl, rfl⟩

theorem C7_witness :
    (solve (ChallengeArg.obj ⟨JField.fnum 3, JField.fnum 100, JField.fnum 13⟩)
      = Except.error JError.MalformedChallenge) ∧
    (verify (ChallengeArg.obj ⟨JField.fstr "0x5", JField.fnum 100, JField.fnum 13⟩)
      (SolutionArg.obj ⟨JField.fstr "nothex"⟩) = Except.error JError.MalformedSolution) :=
  ⟨C7_malformed_validation.2.2.2.1 (JField.fnum 3) (JField.fnum 100) (JField.fnum 13)
      (by rintro ⟨cs, dv, mv, hc, -, -⟩; exact absurd hc (by simp)),
    C7_malformed_validation.2.2.2.2.1 "0x5" 100 13 (JField.fstr "nothex")
      (Or.inr ⟨"nothex", rfl, by decide⟩)⟩

/-- C9: for a whitelisted exponent `m ≥ 3` with `2^m - 1` prime (hence
`≡ 3 mod 4`), every intermediate value of solve's loop stays in `[0, M)`:
`fastFixedExpPow` of an in-range value is a square modulo the prime, so it
never equals `M - 1` (`-1` is a non-residue), the XOR with 1 stays below
`M`, and each iteration's input satisfies `barrettFastSquare`'s
precondition. -/
theorem C9_solve_loop_invariant {m : Nat} (hwl : m ∈ Known_Mersenne_Exponents)
    (hm3 : 3 ≤ m) (hp : Nat.Prime (2 ^ m - 1)) {c : Int} (hc0 : 0 ≤ c)
    (hcM : c < modulus m) :
    (∀ i : Nat, 0 ≤ solveLoop m i c ∧ solveLoop m i c < modulus m) ∧
    ((2 ^ m - 1) % 4 = 3) ∧
    (∀ v : Int, 0 ≤ v → v < modulus m →
      IsSquare ((fastFixedExpPow m v : Int) : ZMod (2 ^ m - 1)) ∧
      fastFixedExpPow m v ≠ modulus m - 1 ∧
      0 ≤ jsXorOne (fastFixedExpPow m v) ∧ jsXorOne (fastFixedExpPow m v) < modulus m) := by
  have hn2 : 2 ≤ m := by omega
  refine ⟨fun i => solveLoop_range hm3 hp i hc0 hcM, mersenne_mod_four hn2, ?_⟩
  intro v h0 hM
  have hsq := fastFixedExpPow_isSquare hm3 h0 hM
  have hne := fastFixedExpPow_ne_sub_one hm3 hp h0 hM
  have hr := fastFixedExpPow_range hn2 h0 hM
  have hx := jsXorOne_lt hn2 hr.1 hr.2 hne
  exact ⟨hsq, hne, hx.1, hx.2⟩

theorem C9_witness :
    (3 : Nat) ∈ Known_Mersenne_Exponents ∧ 3 ≤ 3 ∧ Nat.Prime (2 ^ 3 - 1) ∧
      (0 : Int) ≤ 5 ∧ (5 : Int) < modulus 3 ∧
      (0 ≤ solveLoop 3 4 5 ∧ solveLoop 3 4 5 < modulus 3) :=
  ⟨by decide, by norm_num, by norm_num, by decide, by decide,
    (C9_solve_loop_invariant (by decide) (by norm_num) (by norm_num)
      (by decide) (by decide)).1 4⟩

/-- C10: for every exponent `m` that `generate` accepts (whitelisted and at
least 61), the chosen byte length satisfies `8*byteLength < m`, so every
value the random-byte source can produce decodes below
`2^(8*byteLength) < modulus`, and solve on any such generated challenge
never raises `OutOfRange` (it succeeds outright). -/
theorem C10_generate_in_range {m : Nat} (hacc : generateAcceptsExpo m = true) :
    8 * challengeByteLength m < m ∧
    (∀ c : Nat, c < 2 ^ (8 * challengeByteLength m) →
      (c : Int) < modulus m ∧
      ∀ d : Int,
        solve (ChallengeArg.obj
            ⟨JField.fstr ("0x" ++ natToHex c), JField.fnum d, JField.fnum m⟩)
          = Except.ok ⟨"0x" ++ natToHex (solveLoop m d.toNat (c : Int)).toNat⟩) := by
  have hcc : isMersenneExponent m = true ∧ 61 ≤ m := by
    unfold generateAcceptsExpo at hacc
    simp only [Bool.and_eq_true, Bool.not_eq_true', decide_eq_false_iff_not,
      not_lt] at hacc
    exact hacc
  have hwl : m ∈ Known_Mersenne_Exponents := by
    have h := hcc.1
    unfold isMersenneExponent at h
    simpa using h
  have hkey : ∀ x ∈ Known_Mersenne_Exponents, 61 ≤ x → 8 * challengeByteLength x < x := by
    decide
  have h1 : 8 * challengeByteLength m < m := hkey m hwl hcc.2
  refine ⟨h1, ?_⟩
  intro c hc
  have hm2 : 2 ≤ m := two_le_of_mem_whitelist hwl
  have hcM : (c : Int) < modulus m := by
    have hle : (2 : Nat) ^ (8 * challengeByteLength m) ≤ 2 ^ (m - 1) :=
      Nat.pow_le_pow_right (by norm_num) (by omega)
    have h2 : (c : Nat) < 2 ^ (m - 1) := lt_of_lt_of_le hc hle
    have h3 : (c : Int) < (2 : Int) ^ (m - 1) := by exact_mod_cast h2
    have e := (two_pow_split hm2).1
    have hP := two_le_two_pow_pred hm2
    unfold modulus
    linarith
  refine ⟨hcM, ?_⟩
  intro d
  rw [solve_eq hwl (hex_roundtrip c).2 d,
    if_neg (by push_neg; exact ⟨le_of_lt hcM, Int.natCast_nonneg c⟩)]

theorem C10_witness :
    generateAcceptsExpo 89 = true ∧
      8 * challengeByteLength 89 < 89 ∧
      ((3 : Nat) < 2 ^ (8 * challengeByteLength 89) ∧
        ((3 : Int) < modulus 89 ∧
          solve (ChallengeArg.obj
              ⟨JField.fstr ("0x" ++ natToHex 3), JField.fnum 7, JField.fnum 89⟩)
            = Except.ok ⟨"0x" ++ natToHex (solveLoop 89 (7 : Int).toNat 3).toNat⟩)) :=
  ⟨by decide, (C10_generate_in_range (by decide)).1,
    by decide,
    ⟨((C10_generate_in_range (by decide)).2 3 (by decide)).1,
      ((C10_generate_in_range (by decide)).2 3 (by decide)).2 7⟩⟩

/-- C1 (counterexample): the round trip fails on the whitelisted exponent
`m = 2`, where `exponentLog2 = 0` makes `fastFixedExpPow` the identity:
for `c = 2 ∈ [0, 2^2 - 1)` and `d = 1`, solve outputs `0x3 = modulus 2`,
which verify rejects as out of range and returns `false`. -/
theorem C1_counterexample :
    (2 : Nat) ∈ Known_Mersenne_Exponents ∧
      jsBigInt "0x2" = some 2 ∧ (0 : Int) ≤ 2 ∧ (2 : Int) < modulus 2 ∧
      solve (ChallengeArg.obj ⟨JField.fstr "0x2", JField.fnum 1, JField.fnum 2⟩)
        = Except.ok ⟨"0x3"⟩ ∧
      verify (ChallengeArg.obj ⟨JField.fstr "0x2", JField.fnum 1, JField.fnum 2⟩)
        (SolutionArg.obj ⟨JField.fstr "0x3"⟩) = Except.ok false := by
  decide

/-- C1 (amended): for every challenge whose exponent `m` is whitelisted with
`m ≥ 3` (`2^m - 1` is then a Mersenne prime, carried as an explicit
hypothesis), difficulty a non-negative integer, and decoded value in
`[0, 2^m - 1)`: `verify(challenge, solve(challenge))` returns true; and for
`d = 0`, solve returns the original value unchanged (it re-encodes the same
decoded value). -/
theorem C1_roundtrip {m : Nat} (hwl : m ∈ Known_Mersenne_Exponents) (hm3 : 3 ≤ m)
    (hp : Nat.Prime (2 ^ m - 1)) {cs : String} {cval : Int}
    (hcs : jsBigInt cs = some cval) (hc0 : 0 ≤ cval) (hcM : cval < modulus m)
    (d : Int) :
    (∃ sol : Solution,
      solve (ChallengeArg.obj ⟨JField.fstr cs, JField.fnum d, JField.fnum m⟩)
          = Except.ok sol ∧
        verify (ChallengeArg.obj ⟨JField.fstr cs, JField.fnum d, JField.fnum m⟩)
          (SolutionArg.obj ⟨JField.fstr sol.s⟩) = Except.ok true) ∧
    (d = 0 →
      solve (ChallengeArg.obj ⟨JField.fstr cs, JField.fnum d, JField.fnum m⟩)
          = Except.ok ⟨"0x" ++ natToHex cval.toNat⟩ ∧
        jsBigInt ("0x" ++ natToHex cval.toNat) = some cval) := by
  have hsr := solveLoop_range hm3 hp d.toNat hc0 hcM
  have hsolve : solve (ChallengeArg.obj ⟨JField.fstr cs, JField.fnum d, JField.fnum m⟩)
      = Except.ok ⟨"0x" ++ natToHex (solveLoop m d.toNat cval).toNat⟩ := by
    rw [solve_eq hwl hcs d, if_neg (by push_neg; exact ⟨le_of_lt hcM, hc0⟩)]
  have hparse : jsBigInt ("0x" ++ natToHex (solveLoop m d.toNat cval).toNat)
      = some (solveLoop m d.toNat cval) := by
    rw [(hex_roundtrip (solveLoop m d.toNat cval).toNat).2,
      Int.toNat_of_nonneg hsr.1]
  constructor
  · refine ⟨⟨"0x" ++ natToHex (solveLoop m d.toNat cval).toNat⟩, hsolve, ?_⟩
    rw [verify_eq hwl hcs hparse
      (hex_roundtrip (solveLoop m d.toNat cval).toNat).1 d,
      if_neg (by push_neg; exact ⟨hsr.2, hsr.1⟩)]
    rcases verifyLoop_solveLoop hm3 hp d.toNat hc0 hcM with h | ⟨h, _⟩
    · rw [decide_eq_true (Or.inl h)]
    · rw [decide_eq_true (Or.inr h)]
  · intro hd0
    subst hd0
    have hzero : solveLoop m (0 : Int).toNat cval = cval := rfl
    rw [hzero] at hsolve hparse
    exact ⟨hsolve, hparse⟩

theorem C1_witness :
    (3 : Nat) ∈ Known_Mersenne_Exponents ∧ Nat.Prime (2 ^ 3 - 1) ∧
      jsBigInt "0x5" = some 5 ∧ (0 : Int) ≤ 5 ∧ (5 : Int) < modulus 3 ∧
      (∃ sol : Solution,
        solve (ChallengeArg.obj ⟨JField.fstr "0x5", JField.fnum 2, JField.fnum 3⟩)
            = Except.ok sol ∧
          verify (ChallengeArg.obj ⟨JField.fstr "0x5", JField.fnum 2, JField.fnum 3⟩)
            (SolutionArg.obj ⟨JField.fstr sol.s⟩) = Except.ok true) :=
  ⟨by decide, by norm_num, by decide, by decide, by decide,
    (C1_roundtrip (by decide) (by norm_num) (by norm_num)
      (by decide : jsBigInt "0x5" = some (5 : Int)) (by decide) (by decide) 2).1⟩

end Busybot
